import Mathlib

/-!
Verification of the blu imageboard backend (src/main.rs).

The definitions below are a shallow embedding of the Rust source:
strings are Lean `String`s (Rust `len()` is the UTF-8 byte size),
the text renderer works over `List Char`, fallible operations return
`Except String`, and the I/O performed by the handlers is modelled by
explicit oracle parameters plus an explicit write log where needed.
-/

namespace Blu

/-- Rust `String::len`: number of UTF-8 bytes. -/
def strLen (s : String) : Nat := s.utf8ByteSize

/-! ### Text renderer (`encode_comment`, `encode_subject`)

`html_escape::encode_text` escapes exactly `&`, `<`, `>`. -/

def escChar (c : Char) : List Char :=
  if c = '&' then ['&', 'a', 'm', 'p', ';']
  else if c = '<' then ['&', 'l', 't', ';']
  else if c = '>' then ['&', 'g', 't', ';']
  else [c]

def escapeHtml (l : List Char) : List Char := (l.map escChar).flatten

/-- Rust `str::lines`: split at `\n`, treating `\r\n` as a terminator as
well; a final line terminator produces no trailing empty line. -/
def rustLines : List Char → List (List Char)
  | [] => []
  | '\n' :: cs => [] :: rustLines cs
  | '\r' :: '\n' :: cs => [] :: rustLines cs
  | c :: cs =>
    match rustLines cs with
    | [] => [[c]]
    | s :: r => (c :: s) :: r

/-- The escaped single citation marker `&gt;`. -/
def gtMark : List Char := ['&', 'g', 't', ';']

/-- The escaped double citation marker `&gt;&gt;`. -/
def citePat : List Char := ['&', 'g', 't', ';', '&', 'g', 't', ';']

def spanOpen : List Char := ['<', 's', 'p', 'a', 'n', '>']

def spanClose : List Char := ['<', '/', 's', 'p', 'a', 'n', '>']

def brTok : List Char := ['<', 'b', 'r', '>']

/-- Per-line greentext wrapping:
`if ln.starts_with("&gt;") && !ln.starts_with("&gt;&gt;")`. -/
def wrapLine (ln : List Char) : List Char :=
  if gtMark.isPrefixOf ln && !(citePat.isPrefixOf ln) then
    spanOpen ++ ln ++ spanClose
  else ln

/-- `.join("<br>")` on the processed lines. -/
def joinBr : List (List Char) → List Char
  | [] => []
  | [x] => x
  | x :: y :: r => x ++ brTok ++ joinBr (y :: r)

/-- One character of the URL regex body
`(?:[a-zA-Z]|[0-9]|[$-_@.&+]|[!*\(\),]|(?:%[0-9a-fA-F][0-9a-fA-F]))`.
Since `%` and every hex digit are already matched by an earlier
single-character alternative, each repetition consumes exactly one
character of the union class. -/
def isUrlChar (c : Char) : Bool :=
  c.isAlpha || c.isDigit || ('$' ≤ c && c ≤ '_') ||
    c = '!' || c = '*' || c = '(' || c = ')' || c = ','

def httpsPre : List Char := ['h', 't', 't', 'p', 's', ':', '/', '/']

def httpPre : List Char := ['h', 't', 't', 'p', ':', '/', '/']

def httpSub : List Char := ['h', 't', 't', 'p']

/-- Leftmost-first match of `http[s]?://CLASS+` at the head of `l`:
returns the total matched length. -/
def urlMatch? (l : List Char) : Option Nat :=
  if httpsPre.isPrefixOf l then
    let run := (l.drop 8).takeWhile isUrlChar
    if run.isEmpty then none else some (8 + run.length)
  else if httpPre.isPrefixOf l then
    let run := (l.drop 7).takeWhile isUrlChar
    if run.isEmpty then none else some (7 + run.length)
  else none

/-- Replacement `<a href="$0">$0</a>`. -/
def urlLink (m : List Char) : List Char :=
  ('<' :: 'a' :: ' ' :: 'h' :: 'r' :: 'e' :: 'f' :: '=' :: '"' :: []) ++ m ++
    ('"' :: '>' :: []) ++ m ++ ('<' :: '/' :: 'a' :: '>' :: [])

/-- `re_url.replace_all`, fuelled scan (fuel `≥` length suffices). -/
def urlReplF : Nat → List Char → List Char
  | 0, l => l
  | _ + 1, [] => []
  | f + 1, c :: cs =>
    match urlMatch? (c :: cs) with
    | some k => urlLink ((c :: cs).take k) ++ urlReplF f (cs.drop (k - 1))
    | none => c :: urlReplF f cs

def urlRepl (l : List Char) : List Char := urlReplF l.length l

/-- Leftmost match of `&gt;&gt;(\d+)` at the head of `l`: returns the
digit group. -/
def citeMatch? (l : List Char) : Option (List Char) :=
  if citePat.isPrefixOf l then
    let d := (l.drop 8).takeWhile Char.isDigit
    if d.isEmpty then none else some d
  else none

/-- Replacement `<a href="#p$1">&gt;&gt;$1</a>`. -/
def citeLink (d : List Char) : List Char :=
  ('<' :: 'a' :: ' ' :: 'h' :: 'r' :: 'e' :: 'f' :: '=' :: '"' :: '#' :: 'p' :: []) ++ d ++
    ('"' :: '>' :: []) ++ citePat ++ d ++ ('<' :: '/' :: 'a' :: '>' :: [])

/-- `re_replies.replace_all`, fuelled scan. -/
def citeReplF : Nat → List Char → List Char
  | 0, l => l
  | _ + 1, [] => []
  | f + 1, c :: cs =>
    match citeMatch? (c :: cs) with
    | some d => citeLink d ++ citeReplF f (cs.drop (7 + d.length))
    | none => c :: citeReplF f cs

def citeRepl (l : List Char) : List Char := citeReplF l.length l

/-- The plain stretches that the citation scan leaves untouched, in
order; there is always exactly one more segment than there are tokens. -/
def citeSegsF : Nat → List Char → List (List Char)
  | 0, l => [l]
  | _ + 1, [] => [[]]
  | f + 1, c :: cs =>
    match citeMatch? (c :: cs) with
    | some d => [] :: citeSegsF f (cs.drop (7 + d.length))
    | none =>
      match citeSegsF f cs with
      | [] => [[c]]
      | s :: r => (c :: s) :: r

def citeSegs (l : List Char) : List (List Char) := citeSegsF l.length l

/-- The digit groups of the citation tokens found by the scan, in
their original order. -/
def citeToksF : Nat → List Char → List (List Char)
  | 0, _ => []
  | _ + 1, [] => []
  | f + 1, c :: cs =>
    match citeMatch? (c :: cs) with
    | some d => d :: citeToksF f (cs.drop (7 + d.length))
    | none => citeToksF f cs

def citeToks (l : List Char) : List (List Char) := citeToksF l.length l

/-- Interleave the plain segments with the (replaced) tokens. -/
def citeRebuild : List (List Char) → List (List Char) → List Char
  | [], _ => []
  | s :: _, [] => s
  | s :: segs, t :: toks => s ++ t ++ citeRebuild segs toks

/-- The body of `encode_comment`: escape, split into lines, wrap
greentext lines, rejoin with `<br>`, link URLs, then link citations. -/
def encodeComList (l : List Char) : List Char :=
  citeRepl (urlRepl (joinBr ((rustLines (escapeHtml l)).map wrapLine)))

def encode_comment (s : String) : String := String.mk (encodeComList s.data)

/-- `encode_subject`: `format!("<b>{}</b>", encode_comment(sub))`. -/
def encode_subject (s : String) : String := "<b>" ++ encode_comment s ++ "</b>"

/-- Substring test: does `pat` occur contiguously in `l`? -/
def containsSeq (pat : List Char) : List Char → Bool
  | [] => pat.isEmpty
  | c :: cs => pat.isPrefixOf (c :: cs) || containsSeq pat cs

/-- Split on a separator (fuelled scan; fuel `≥` length suffices). -/
def splitOnCF (sep : List Char) : Nat → List Char → List (List Char)
  | _, [] => [[]]
  | 0, l => [l]
  | f + 1, c :: cs =>
    if !sep.isEmpty && sep.isPrefixOf (c :: cs) then
      [] :: splitOnCF sep f ((c :: cs).drop sep.length)
    else
      match splitOnCF sep f cs with
      | [] => [[c]]
      | s :: r => (c :: s) :: r

def listSplitOn (sep l : List Char) : List (List Char) :=
  splitOnCF sep (l.length + 1) l

/-- `Result::is_ok` for the embedded `Res` type. -/
def isOkE {ε α : Type} : Except ε α → Bool
  | .ok _ => true
  | .error _ => false

/-! ### Data model and form validation -/

structure Board where
  code : String
  name : String
  desc : String
  max_threads : Int
  max_replies : Int
  max_img_replies : Int
  max_sub_len : Int
  max_com_len : Int
  max_file_size : Int
  is_nsfw : Bool
  created_at : Int

/-- The single post entity; `op = none` marks a thread root. -/
structure Comment where
  id : Int
  «alias» : Option String
  file_name : Option String
  media_name : Option String
  media_size : Option Int
  media_ext : Option String
  media_desc : Option String
  thumb_name : Option String
  thumb_size : Option Int
  sub : Option String
  com : Option String
  op : Option Int
  board : Option String
  created_at : Int

structure CreateBoard where
  code : String
  name : String
  desc : String
  max_threads : Int
  max_replies : Int
  max_img_replies : Int
  max_sub_len : Int
  max_com_len : Int
  max_file_size : Int
  is_nsfw : Bool

/-- `CreateBoard::validate` from src/main.rs. -/
def CreateBoard.validate (b : CreateBoard) : Except String CreateBoard :=
  if b.code = "" ∨ 5 < strLen b.code then .error "invalid board code"
  else if b.name = "" ∨ 100 < strLen b.name then .error "invalid board name"
  else if b.desc = "" ∨ 100 < strLen b.desc then .error "invalid board description"
  else if b.max_threads < 0 then .error "max_threads can't be negative"
  else if b.max_replies < 0 then .error "max_replies can't be negative"
  else if b.max_img_replies < 0 then .error "max_img_replies can't be negative"
  else .ok b

/-- `if let Some(alias) = &self.alias && alias.len() > 100`. -/
def aliasTooLong : Option String → Bool
  | some a => 100 < strLen a
  | none => false

structure CreateThread where
  «alias» : Option String
  sub : Option String
  com : Option String
  media_desc : Option String
  board : String

/-- `CreateThread::validate` from src/main.rs. -/
def CreateThread.validate (t : CreateThread) : Except String CreateThread :=
  if t.sub.isNone && t.com.isNone then .error "sub or com is required"
  else if t.board = "" then .error "board is required"
  else if aliasTooLong t.«alias» then .error "alias is too long"
  else .ok { «alias» := t.«alias», sub := t.sub.map encode_subject,
             com := t.com.map encode_comment, media_desc := t.media_desc,
             board := t.board }

structure CreateComment where
  «alias» : Option String
  com : Option String
  media_desc : Option String
  op : Int

/-- `CreateComment::validate` from src/main.rs. -/
def CreateComment.validate (c : CreateComment) : Except String CreateComment :=
  if c.op < 0 then .error "op can't be negative"
  else if aliasTooLong c.«alias» then .error "alias is too long"
  else .ok { «alias» := c.«alias», com := c.com.map encode_comment,
             media_desc := c.media_desc, op := c.op }

/-! ### Media ingestion (`save_media`)

The external collaborators (`infer::get`, `create_thumbnails` plus
`write_jpeg`, and the blob-store file writes) are oracle parameters.
The second component of the result is the log of blob writes. -/

structure MediaKind where
  mime : String
  ext : String

structure MediaInfo where
  media_name : String
  media_size : Int
  media_ext : String
  thumb_name : String
  thumb_size : Int

def save_media {T : Type} (inferGet : List Nat → Option MediaKind)
    (createThumbnails : List Nat → String → Except String (List T))
    (writeJpeg : T → Except String (List Nat))
    (writeFile : String → List Nat → Except String Unit)
    (uuid : String) (media_data : List Nat) :
    Except String MediaInfo × List (String × List Nat) :=
  match inferGet media_data with
  | none => (.error "Failed to infer media type", [])
  | some kind =>
    let media_name := uuid
    let thumb_name := uuid ++ "t"
    match createThumbnails media_data kind.mime with
    | .error e => (.error e, [])
    | .ok thumbs =>
      match thumbs.getLast? with
      | none => (.error "Failed to create thumbnails", [])
      | some thumb =>
        match writeJpeg thumb with
        | .error e => (.error e, [])
        | .ok thumb_data =>
          let media_size : Int := media_data.length
          let thumb_size : Int := thumb_data.length
          let media_ext := kind.ext
          match writeFile media_name media_data with
          | .error e => (.error e, [(media_name, media_data)])
          | .ok _ =>
            match writeFile thumb_name thumb_data with
            | .error e => (.error e, [(media_name, media_data), (thumb_name, thumb_data)])
            | .ok _ =>
              (.ok { media_name := media_name, media_size := media_size,
                     media_ext := media_ext, thumb_name := thumb_name,
                     thumb_size := thumb_size },
               [(media_name, media_data), (thumb_name, thumb_data)])

/-! ### Handler cores (`create_thread`, `create_comment`)

Everything after multipart decoding; the board lookup, `save_media` and
the row id / timestamp produced by the insert are oracle parameters.
The inserted row is built exactly from the columns of the INSERT
statement (omitted columns are NULL). -/

def create_thread_impl (d : CreateThread) (file_name : Option String)
    (file_bytes : Option (List Nat)) (findBoard : String → Except String Board)
    (saveMedia : List Nat → Except String MediaInfo)
    (rid rcreated : Int) : Except String Comment :=
  match d.validate with
  | .error e => .error e
  | .ok t =>
    match findBoard t.board with
    | .error e => .error e
    | .ok _ =>
      match file_bytes with
      | none => .error "image is required"
      | some media_data =>
        match saveMedia media_data with
        | .error e => .error e
        | .ok mi =>
          .ok { id := rid, «alias» := t.«alias», file_name := file_name,
                media_name := some mi.media_name, media_size := some mi.media_size,
                media_ext := some mi.media_ext, media_desc := t.media_desc,
                thumb_name := some mi.thumb_name, thumb_size := some mi.thumb_size,
                sub := t.sub, com := t.com, op := none, board := some t.board,
                created_at := rcreated }

def create_comment_impl (d : CreateComment) (file_name : Option String)
    (file_bytes : Option (List Nat))
    (saveMedia : List Nat → Except String MediaInfo)
    (rid rcreated : Int) : Except String Comment :=
  match d.validate with
  | .error e => .error e
  | .ok c =>
    if c.com.isNone && file_bytes.isNone then .error "comment or image is required"
    else
      match file_bytes with
      | some media_data =>
        match saveMedia media_data with
        | .error e => .error e
        | .ok mi =>
          .ok { id := rid, «alias» := c.«alias», file_name := file_name,
                media_name := some mi.media_name, media_size := some mi.media_size,
                media_ext := some mi.media_ext, media_desc := c.media_desc,
                thumb_name := some mi.thumb_name, thumb_size := some mi.thumb_size,
                sub := none, com := c.com, op := some c.op, board := none,
                created_at := rcreated }
      | none =>
        .ok { id := rid, «alias» := c.«alias», file_name := none,
              media_name := none, media_size := none, media_ext := none,
              media_desc := none, thumb_name := none, thumb_size := none,
              sub := none, com := c.com, op := some c.op, board := none,
              created_at := rcreated }

/-- The media-pair invariant of §3 of the spec: thumbnail fields are
populated iff the original-media fields are. -/
def mediaPairInvariant (r : Comment) : Prop :=
  (r.thumb_name.isSome = true ∧ r.thumb_size.isSome = true) ↔
    (r.media_name.isSome = true ∧ r.media_size.isSome = true ∧ r.media_ext.isSome = true)

/-! ### Multipart decoding (`parse_multipart`) -/

/-- One multipart field: its name, the client-declared filename, its
text payload (`field.text()` can fail on invalid UTF-8) and its
buffered bytes. -/
structure Part where
  name : Option String
  file_name : Option String
  text : Except String String
  bytes : List Nat

structure MultiPartData (T : Type) where
  data : T
  file_name : Option String
  file_bytes : Option (List Nat)

/-- `Path::file_stem` on the last path component (the portion of the
file name before the final `.`; a lone leading `.` does not count). -/
def stemOf (name : List Char) : List Char :=
  let r := name.reverse
  let b := r.takeWhile (fun c => c ≠ '.')
  if b.length = r.length then name
  else
    let a := (r.drop (b.length + 1)).reverse
    if a.isEmpty then name else a

/-- `Path::new(file).file_stem().and_then(|s| s.to_str()).unwrap_or(file)`:
directories are stripped, then the extension; if there is no file name
(path empty or ending in `..`) the whole original string is kept. -/
def fileStem (f : String) : String :=
  let comps := (listSplitOn ['/'] f.data).filter (fun c => ¬c.isEmpty ∧ c ≠ ['.'])
  match comps.getLast? with
  | none => f
  | some last => if last = ['.', '.'] then f else String.mk (stemOf last)

structure MPState (T : Type) where
  data : Option T
  file_name : Option String
  file_bytes : Option (List Nat)

/-- The field loop of `parse_multipart`. -/
def parse_go {T : Type} (decode : String → Except String T) :
    List Part → MPState T → Except String (MultiPartData T)
  | [], st =>
    match st.data with
    | none => .error "invalid data"
    | some d => .ok { data := d, file_name := st.file_name, file_bytes := st.file_bytes }
  | p :: rest, st =>
    if p.name = some "data" then
      match p.text with
      | .error e => .error e
      | .ok txt =>
        match decode txt with
        | .error e => .error e
        | .ok d => parse_go decode rest { st with data := some d }
    else if p.name = some "media" then
      match p.file_name with
      | none => .error "file namenot found"
      | some f =>
        parse_go decode rest
          { data := st.data, file_name := some (fileStem f), file_bytes := some p.bytes }
    else parse_go decode rest st

def parse_multipart {T : Type} (decode : String → Except String T)
    (parts : List Part) : Except String (MultiPartData T) :=
  parse_go decode parts { data := none, file_name := none, file_bytes := none }

/-- A part that the field loop passes over without failing. -/
def cleanPart {T : Type} (decode : String → Except String T) (p : Part) : Prop :=
  (p.name = some "data" → ∃ t d, p.text = .ok t ∧ decode t = .ok d) ∧
    (p.name = some "media" → p.file_name ≠ none)

/-! ### List helper lemmas -/

theorem tw_len_le (p : Char → Bool) : ∀ l : List Char, (l.takeWhile p).length ≤ l.length := by
  intro l
  induction l with
  | nil => simp
  | cons c cs ih =>
    by_cases h : p c
    · simp only [List.takeWhile_cons_of_pos h, List.length_cons]
      omega
    · simp [List.takeWhile_cons_of_neg h]

theorem tw_stop {p : Char → Bool} {c : Char} (hc : p c = false) :
    ∀ x y : List Char, (x ++ c :: y).takeWhile p = x.takeWhile p := by
  intro x y
  induction x with
  | nil => simp [List.takeWhile_cons_of_neg, hc]
  | cons a x' ih =>
    by_cases h : p a
    · simp [List.takeWhile_cons_of_pos h, ih]
    · simp [List.takeWhile_cons_of_neg h]

theorem tw_all {p : Char → Bool} : ∀ {x : List Char}, (∀ a ∈ x, p a = true) → x.takeWhile p = x := by
  intro x h
  induction x with
  | nil => rfl
  | cons a x' ih =>
    simp [List.takeWhile_cons_of_pos (h a (by simp)), ih fun b hb => h b (by simp [hb])]

theorem pfx_self : ∀ p : List Char, p.isPrefixOf p = true := by
  intro p
  induction p with
  | nil => rfl
  | cons c cs ih => simp [List.isPrefixOf, ih]

theorem pfx_append : ∀ p a z : List Char, p.isPrefixOf a = true → p.isPrefixOf (a ++ z) = true
  | [], _, _, _ => by simp [List.isPrefixOf]
  | c :: p', [], _, h => by simp [List.isPrefixOf] at h
  | c :: p', b :: a', z, h => by
    simp only [List.isPrefixOf, Bool.and_eq_true, beq_iff_eq] at h ⊢
    exact ⟨h.1, pfx_append p' a' z h.2⟩

theorem pfx_len : ∀ p l : List Char, p.isPrefixOf l = true → p.length ≤ l.length
  | [], _, _ => by simp
  | c :: p', [], h => by simp [List.isPrefixOf] at h
  | c :: p', b :: l', h => by
    simp only [List.isPrefixOf, Bool.and_eq_true, beq_iff_eq] at h
    simpa using pfx_len p' l' h.2

theorem pfx_trans : ∀ p q l : List Char,
    p.isPrefixOf q = true → q.isPrefixOf l = true → p.isPrefixOf l = true
  | [], _, _, _, _ => by simp [List.isPrefixOf]
  | c :: p', [], _, h1, _ => by simp [List.isPrefixOf] at h1
  | c :: p', d :: q', [], _, h2 => by simp [List.isPrefixOf] at h2
  | c :: p', d :: q', e :: l', h1, h2 => by
    simp only [List.isPrefixOf, Bool.and_eq_true, beq_iff_eq] at h1 h2 ⊢
    exact ⟨h1.1.trans h2.1, pfx_trans p' q' l' h1.2 h2.2⟩

theorem pfx_sep : ∀ (p a : List Char) (c : Char) (b : List Char), (∀ x ∈ p, x ≠ c) →
    p.isPrefixOf (a ++ c :: b) = true → p.isPrefixOf a = true
  | [], _, _, _, _, _ => by simp [List.isPrefixOf]
  | x :: p', [], c, b, hni, h => by
    simp only [List.nil_append, List.isPrefixOf, Bool.and_eq_true, beq_iff_eq] at h
    exact absurd h.1 (hni x (by simp))
  | x :: p', y :: a', c, b, hni, h => by
    simp only [List.cons_append, List.isPrefixOf, Bool.and_eq_true, beq_iff_eq] at h ⊢
    exact ⟨h.1, pfx_sep p' a' c b (fun z hz => hni z (by simp [hz])) h.2⟩

/-! ### Scanner unfolding lemmas -/

theorem citeReplF_fuel : ∀ (f g : Nat) (l : List Char), l.length ≤ f → l.length ≤ g →
    citeReplF f l = citeReplF g l := by
  intro f
  induction f with
  | zero =>
    intro g l hf _
    have : l = [] := by
      cases l with
      | nil => rfl
      | cons c cs => simp at hf
    subst this
    cases g <;> rfl
  | succ f ih =>
    intro g l hf hg
    cases l with
    | nil => cases g <;> rfl
    | cons c cs =>
      cases g with
      | zero => simp at hg
      | succ g' =>
        cases hm : citeMatch? (c :: cs) with
        | some d =>
          simp only [citeReplF, hm]
          simp only [List.length_cons] at hf hg
          rw [ih g' (cs.drop (7 + d.length)) (by simp only [List.length_drop]; omega)
            (by simp only [List.length_drop]; omega)]
        | none =>
          simp only [citeReplF, hm]
          simp only [List.length_cons] at hf hg
          rw [ih g' cs (by omega) (by omega)]

theorem citeRepl_cons_some {c : Char} {cs d : List Char} (h : citeMatch? (c :: cs) = some d) :
    citeRepl (c :: cs) = citeLink d ++ citeRepl (cs.drop (7 + d.length)) := by
  unfold citeRepl
  simp only [List.length_cons, citeReplF, h]
  congr 1
  exact citeReplF_fuel _ _ _ (by simp only [List.length_drop]; omega) le_rfl

theorem citeRepl_cons_none {c : Char} {cs : List Char} (h : citeMatch? (c :: cs) = none) :
    citeRepl (c :: cs) = c :: citeRepl cs := by
  unfold citeRepl
  simp only [List.length_cons, citeReplF, h]

theorem urlReplF_fuel : ∀ (f g : Nat) (l : List Char), l.length ≤ f → l.length ≤ g →
    urlReplF f l = urlReplF g l := by
  intro f
  induction f with
  | zero =>
    intro g l hf _
    have : l = [] := by
      cases l with
      | nil => rfl
      | cons c cs => simp at hf
    subst this
    cases g <;> rfl
  | succ f ih =>
    intro g l hf hg
    cases l with
    | nil => cases g <;> rfl
    | cons c cs =>
      cases g with
      | zero => simp at hg
      | succ g' =>
        cases hm : urlMatch? (c :: cs) with
        | some k =>
          simp only [urlReplF, hm]
          simp only [List.length_cons] at hf hg
          rw [ih g' (cs.drop (k - 1)) (by simp only [List.length_drop]; omega)
            (by simp only [List.length_drop]; omega)]
        | none =>
          simp only [urlReplF, hm]
          simp only [List.length_cons] at hf hg
          rw [ih g' cs (by omega) (by omega)]

theorem urlRepl_cons_none {c : Char} {cs : List Char} (h : urlMatch? (c :: cs) = none) :
    urlRepl (c :: cs) = c :: urlRepl cs := by
  unfold urlRepl
  simp only [List.length_cons, urlReplF, h]

/-! ### Citation-pass structure lemmas

A citation match consists only of the characters `&`, `g`, `t`, `;` and
digits, so `<` acts as a hard separator: no match crosses it. -/

theorem citeMatch?_ne {c : Char} (cs : List Char) (h : c ≠ '&') :
    citeMatch? (c :: cs) = none := by
  unfold citeMatch?
  have hp : citePat.isPrefixOf (c :: cs) = false := by
    simp only [citePat, List.isPrefixOf, Bool.and_eq_false_iff, beq_eq_false_iff_ne, ne_eq]
    exact Or.inl fun he => h he.symm
  simp [hp]

theorem citeMatch?_sep (a b : List Char) : citeMatch? (a ++ '<' :: b) = citeMatch? a := by
  unfold citeMatch?
  by_cases hp : citePat.isPrefixOf a = true
  · have hp' : citePat.isPrefixOf (a ++ '<' :: b) = true := pfx_append _ _ _ hp
    have hlen : 8 ≤ a.length := pfx_len _ _ hp
    have hd : (a ++ '<' :: b).drop 8 = a.drop 8 ++ '<' :: b :=
      List.drop_append_of_le_length hlen
    rw [hp, hp', hd, tw_stop (by decide)]
  · have hp' : citePat.isPrefixOf (a ++ '<' :: b) = false := by
      simp only [Bool.eq_false_iff, ne_eq]
      intro hc
      exact hp (pfx_sep citePat a '<' b (by decide) hc)
    have hp2 : citePat.isPrefixOf a = false := Bool.eq_false_iff.mpr hp
    simp [hp2, hp']

theorem citeMatch?_bound {c : Char} {cs d : List Char} (h : citeMatch? (c :: cs) = some d) :
    7 + d.length ≤ cs.length := by
  unfold citeMatch? at h
  by_cases hp : citePat.isPrefixOf (c :: cs) = true
  · rw [hp] at h
    simp only [if_true] at h
    have hlen := pfx_len _ _ hp
    simp only [citePat, List.length_cons, List.length_nil, List.length] at hlen
    split at h
    · exact absurd h (by simp)
    · have hd : d = ((c :: cs).drop 8).takeWhile Char.isDigit := by
        injection h with h'
        exact h'.symm
      have : ((c :: cs).drop 8).length = cs.length - 7 := by
        simp [List.length_drop]
      have hle := tw_len_le Char.isDigit ((c :: cs).drop 8)
      rw [← hd] at hle
      omega
  · have hp2 : citePat.isPrefixOf (c :: cs) = false := Bool.eq_false_iff.mpr hp
    simp [hp2] at h

/-- `<` is a hard separator for the citation pass. -/
theorem citeRepl_sep_aux : ∀ (n : Nat) (a b : List Char), a.length ≤ n →
    citeRepl (a ++ '<' :: b) = citeRepl a ++ '<' :: citeRepl b := by
  intro n
  induction n with
  | zero =>
    intro a b ha
    have : a = [] := by
      cases a with
      | nil => rfl
      | cons c cs => simp at ha
    subst this
    simp only [List.nil_append]
    rw [citeRepl_cons_none (citeMatch?_ne b (by decide))]
    rfl
  | succ n ih =>
    intro a b ha
    cases a with
    | nil =>
      simp only [List.nil_append]
      rw [citeRepl_cons_none (citeMatch?_ne b (by decide))]
      rfl
    | cons c cs =>
      have hsep := citeMatch?_sep (c :: cs) b
      simp only [List.length_cons] at ha
      cases hm : citeMatch? (c :: cs) with
      | none =>
        rw [hm] at hsep
        rw [List.cons_append, citeRepl_cons_none (by rw [← List.cons_append]; exact hsep),
          citeRepl_cons_none hm, ih cs b (by omega), List.cons_append]
      | some d =>
        rw [hm] at hsep
        have hb := citeMatch?_bound hm
        rw [List.cons_append, citeRepl_cons_some (by rw [← List.cons_append]; exact hsep),
          citeRepl_cons_some hm,
          List.drop_append_of_le_length hb,
          ih (cs.drop (7 + d.length)) b (by simp only [List.length_drop]; omega),
          List.append_assoc]

theorem citeRepl_sep (a b : List Char) :
    citeRepl (a ++ '<' :: b) = citeRepl a ++ '<' :: citeRepl b :=
  citeRepl_sep_aux a.length a b le_rfl

/-- The citation pass distributes over the `<br>` join: it never touches
a line-break marker, so the joined structure is preserved. -/
theorem citeRepl_joinBr : ∀ L : List (List Char),
    citeRepl (joinBr L) = joinBr (L.map citeRepl)
  | [] => rfl
  | [x] => rfl
  | x :: y :: r => by
    have htail : citeRepl ('b' :: 'r' :: '>' :: joinBr (y :: r)) =
        'b' :: 'r' :: '>' :: citeRepl (joinBr (y :: r)) := by
      rw [citeRepl_cons_none (citeMatch?_ne _ (by decide)),
        citeRepl_cons_none (citeMatch?_ne _ (by decide)),
        citeRepl_cons_none (citeMatch?_ne _ (by decide))]
    have hjoin : joinBr (x :: y :: r) = x ++ '<' :: ('b' :: 'r' :: '>' :: joinBr (y :: r)) := by
      simp [joinBr, brTok]
    rw [hjoin, citeRepl_sep, htail, citeRepl_joinBr (y :: r)]
    simp [joinBr, brTok]

/-! ### URL-pass lemmas -/

theorem urlMatch?_some_pfx {l : List Char} {k : Nat} (h : urlMatch? l = some k) :
    httpSub.isPrefixOf l = true := by
  unfold urlMatch? at h
  by_cases h1 : httpsPre.isPrefixOf l = true
  · exact pfx_trans httpSub httpsPre l (by decide) h1
  · by_cases h2 : httpPre.isPrefixOf l = true
    · exact pfx_trans httpSub httpPre l (by decide) h2
    · have h1' : httpsPre.isPrefixOf l = false := Bool.eq_false_iff.mpr h1
      have h2' : httpPre.isPrefixOf l = false := Bool.eq_false_iff.mpr h2
      simp [h1', h2'] at h

/-- If `http` occurs nowhere in the text, the URL pass is the identity. -/
theorem urlRepl_no_http : ∀ {l : List Char}, containsSeq httpSub l = false → urlRepl l = l := by
  intro l
  induction l with
  | nil => intro _; rfl
  | cons c cs ih =>
    intro h
    simp only [containsSeq, Bool.or_eq_false_iff] at h
    have hm : urlMatch? (c :: cs) = none := by
      cases hm : urlMatch? (c :: cs) with
      | none => rfl
      | some k => exact absurd (urlMatch?_some_pfx hm) (by simp [h.1])
    rw [urlRepl_cons_none hm, ih h.2]

theorem urlMatch?_not_h {c : Char} (cs : List Char) (h : c ≠ 'h') :
    urlMatch? (c :: cs) = none := by
  unfold urlMatch?
  have h1 : httpsPre.isPrefixOf (c :: cs) = false := by
    simp only [httpsPre, List.isPrefixOf, Bool.and_eq_false_iff, beq_eq_false_iff_ne, ne_eq]
    exact Or.inl fun he => h he.symm
  have h2 : httpPre.isPrefixOf (c :: cs) = false := by
    simp only [httpPre, List.isPrefixOf, Bool.and_eq_false_iff, beq_eq_false_iff_ne, ne_eq]
    exact Or.inl fun he => h he.symm
  simp [h1, h2]

theorem urlRepl_no_h : ∀ {l : List Char}, (∀ x ∈ l, x ≠ 'h') → urlRepl l = l := by
  intro l
  induction l with
  | nil => intro _; rfl
  | cons c cs ih =>
    intro h
    rw [urlRepl_cons_none (urlMatch?_not_h cs (h c (by simp))), ih fun x hx => h x (by simp [hx])]

/-! ### Citation token lemmas -/

/-- The citation pass copies a stretch without `&` unchanged. -/
theorem citeRepl_plain : ∀ (a y : List Char), (∀ x ∈ a, x ≠ '&') →
    citeRepl (a ++ y) = a ++ citeRepl y := by
  intro a y h
  induction a with
  | nil => simp
  | cons c a' ih =>
    rw [List.cons_append, citeRepl_cons_none (citeMatch?_ne _ (h c (by simp))),
      ih fun x hx => h x (by simp [hx]), List.cons_append]

theorem citeMatch?_token {d y : List Char} (hd : ¬d.isEmpty = true)
    (hdig : ∀ x ∈ d, x.isDigit = true)
    (hy : y = [] ∨ ∃ c y', y = c :: y' ∧ c.isDigit = false) :
    citeMatch? (citePat ++ (d ++ y)) = some d := by
  unfold citeMatch?
  have hp : citePat.isPrefixOf (citePat ++ (d ++ y)) = true := pfx_append _ _ _ (pfx_self _)
  have hdrop : (citePat ++ (d ++ y)).drop 8 = d ++ y := List.drop_left' (by decide)
  have htw : (d ++ y).takeWhile Char.isDigit = d := by
    rcases hy with rfl | ⟨c, y', rfl, hc⟩
    · rw [List.append_nil]; exact tw_all hdig
    · rw [tw_stop hc]; exact tw_all hdig
  rw [hp]
  simp only [if_true, hdrop, htw]
  simp [hd]

theorem citeRepl_token {d y : List Char} (hd : ¬d.isEmpty = true)
    (hdig : ∀ x ∈ d, x.isDigit = true)
    (hy : y = [] ∨ ∃ c y', y = c :: y' ∧ c.isDigit = false) :
    citeRepl (citePat ++ (d ++ y)) = citeLink d ++ citeRepl y := by
  have hm : citeMatch? ('&' :: (['g', 't', ';', '&', 'g', 't', ';'] ++ (d ++ y))) = some d := by
    have : citePat ++ (d ++ y) = '&' :: (['g', 't', ';', '&', 'g', 't', ';'] ++ (d ++ y)) := by
      simp [citePat]
    rw [← this]
    exact citeMatch?_token hd hdig hy
  have hshape : citePat ++ (d ++ y) = '&' :: (['g', 't', ';', '&', 'g', 't', ';'] ++ (d ++ y)) := by
    simp [citePat]
  rw [hshape, citeRepl_cons_some hm]
  congr 1
  have : (['g', 't', ';', '&', 'g', 't', ';'] ++ (d ++ y)) =
      ((['g', 't', ';', '&', 'g', 't', ';'] ++ d) ++ y) := by simp
  rw [this, List.drop_left' (by simp; omega)]

/-! ### Escaping and line-splitting lemmas -/

theorem escapeHtml_append (a b : List Char) :
    escapeHtml (a ++ b) = escapeHtml a ++ escapeHtml b := by
  simp [escapeHtml]

theorem escChar_plain {c : Char} (h1 : c ≠ '&') (h2 : c ≠ '<') (h3 : c ≠ '>') :
    escChar c = [c] := by
  simp [escChar, h1, h2, h3]

theorem escapeHtml_plain : ∀ {l : List Char},
    (∀ x ∈ l, x ≠ '&' ∧ x ≠ '<' ∧ x ≠ '>') → escapeHtml l = l := by
  intro l h
  induction l with
  | nil => rfl
  | cons c cs ih =>
    have hc := h c (by simp)
    have : escapeHtml (c :: cs) = escChar c ++ escapeHtml cs := by simp [escapeHtml]
    rw [this, escChar_plain hc.1 hc.2.1 hc.2.2, ih fun x hx => h x (by simp [hx]),
      List.singleton_append]

theorem digit_facts {x : Char} (h : x.isDigit = true) :
    x ≠ '&' ∧ x ≠ '<' ∧ x ≠ '>' ∧ x ≠ '\n' ∧ x ≠ '\r' ∧ x ≠ 'h' := by
  refine ⟨?_, ?_, ?_, ?_, ?_, ?_⟩ <;> (rintro rfl; exact absurd h (by decide))

theorem rustLines_cons_plain (c : Char) (cs : List Char) (h1 : c ≠ '\n') (h2 : c ≠ '\r') :
    rustLines (c :: cs) =
      match rustLines cs with
      | [] => [[c]]
      | s :: r => (c :: s) :: r := by
  rw [rustLines.eq_def]
  split <;> simp_all

theorem rustLines_single (l : List Char) (hn : ∀ x ∈ l, x ≠ '\n' ∧ x ≠ '\r') (h0 : l ≠ []) :
    rustLines l = [l] := by
  induction l with
  | nil => exact absurd rfl h0
  | cons c cs ih =>
    rw [rustLines_cons_plain c cs (hn c (by simp)).1 (hn c (by simp)).2]
    by_cases hcs : cs = []
    · subst hcs; rfl
    · rw [ih (fun x hx => hn x (by simp [hx])) hcs]

theorem urlMatch?_not_t {c : Char} (cs : List Char) (h : c ≠ 't') :
    urlMatch? ('h' :: c :: cs) = none := by
  unfold urlMatch?
  have h1 : httpsPre.isPrefixOf ('h' :: c :: cs) = false := by
    simp only [httpsPre, List.isPrefixOf, Bool.and_eq_false_iff, beq_eq_false_iff_ne, ne_eq]
    exact Or.inr (Or.inl fun he => h he.symm)
  have h2 : httpPre.isPrefixOf ('h' :: c :: cs) = false := by
    simp only [httpPre, List.isPrefixOf, Bool.and_eq_false_iff, beq_eq_false_iff_ne, ne_eq]
    exact Or.inr (Or.inl fun he => h he.symm)
  simp [h1, h2]

/-! ### Citation decomposition lemmas

The citation pass is characterised universally: every text decomposes
into its untouched segments and its citation tokens (re-interleaving
the segments with the literal tokens recovers the text verbatim), and
the scan replaces exactly each token with its fragment anchor. -/

theorem pfx_take_drop : ∀ p l : List Char, p.isPrefixOf l = true → l = p ++ l.drop p.length
  | [], l, _ => by simp
  | x :: p', [], h => by simp [List.isPrefixOf] at h
  | x :: p', y :: l', h => by
    simp only [List.isPrefixOf, Bool.and_eq_true, beq_iff_eq] at h
    obtain ⟨rfl, h2⟩ := h
    simp only [List.length_cons, List.drop_succ_cons, List.cons_append]
    exact congrArg (x :: ·) (pfx_take_drop p' l' h2)

theorem citeMatch?_elim {l d : List Char} (h : citeMatch? l = some d) :
    citePat.isPrefixOf l = true ∧ d = (l.drop 8).takeWhile Char.isDigit ∧
      d.isEmpty = false := by
  unfold citeMatch? at h
  by_cases hp : citePat.isPrefixOf l = true
  · rw [hp] at h
    simp only [if_true] at h
    split at h
    · exact absurd h (by simp)
    · next hemp =>
      injection h with h'
      rw [h'] at hemp
      exact ⟨hp, h'.symm, Bool.eq_false_iff.mpr hemp⟩
  · have hp2 : citePat.isPrefixOf l = false := Bool.eq_false_iff.mpr hp
    simp [hp2] at h

/-- A citation match is literally the marker, the digits, then the rest
of the text. -/
theorem citeMatch?_decomp {l d : List Char} (h : citeMatch? l = some d) :
    l = citePat ++ (d ++ l.drop (8 + d.length)) := by
  obtain ⟨hp, hd, -⟩ := citeMatch?_elim h
  have h1 := pfx_take_drop citePat l hp
  have hlen : citePat.length = 8 := rfl
  rw [hlen] at h1
  have h3 := List.takeWhile_append_dropWhile Char.isDigit (l.drop 8)
  have h4 : (l.drop 8).dropWhile Char.isDigit = l.drop (8 + d.length) := by
    have h5 : (l.drop 8).drop d.length = (l.drop 8).dropWhile Char.isDigit := by
      conv_lhs => rw [← h3, ← hd]
      exact List.drop_left' rfl
    rw [← h5, List.drop_drop]
  have h2 : l.drop 8 = d ++ l.drop (8 + d.length) := by
    rw [← h4, hd]
    exact h3.symm
  rw [← h2]
  exact h1

theorem citeMatch?_wf {l d : List Char} (h : citeMatch? l = some d) :
    d ≠ [] ∧ ∀ x ∈ d, x.isDigit = true := by
  obtain ⟨-, hd, hne⟩ := citeMatch?_elim h
  constructor
  · intro hnil
    rw [hnil] at hne
    simp at hne
  · intro x hx
    rw [hd] at hx
    exact List.mem_takeWhile_imp hx

theorem citeSegsF_fuel : ∀ (f g : Nat) (l : List Char), l.length ≤ f → l.length ≤ g →
    citeSegsF f l = citeSegsF g l := by
  intro f
  induction f with
  | zero =>
    intro g l hf _
    have : l = [] := by
      cases l with
      | nil => rfl
      | cons c cs => simp at hf
    subst this
    cases g <;> rfl
  | succ f ih =>
    intro g l hf hg
    cases l with
    | nil => cases g <;> rfl
    | cons c cs =>
      cases g with
      | zero => simp at hg
      | succ g' =>
        cases hm : citeMatch? (c :: cs) with
        | some d =>
          simp only [citeSegsF, hm]
          simp only [List.length_cons] at hf hg
          rw [ih g' (cs.drop (7 + d.length)) (by simp only [List.length_drop]; omega)
            (by simp only [List.length_drop]; omega)]
        | none =>
          simp only [citeSegsF, hm]
          simp only [List.length_cons] at hf hg
          rw [ih g' cs (by omega) (by omega)]

theorem citeToksF_fuel : ∀ (f g : Nat) (l : List Char), l.length ≤ f → l.length ≤ g →
    citeToksF f l = citeToksF g l := by
  intro f
  induction f with
  | zero =>
    intro g l hf _
    have : l = [] := by
      cases l with
      | nil => rfl
      | cons c cs => simp at hf
    subst this
    cases g <;> rfl
  | succ f ih =>
    intro g l hf hg
    cases l with
    | nil => cases g <;> rfl
    | cons c cs =>
      cases g with
      | zero => simp at hg
      | succ g' =>
        cases hm : citeMatch? (c :: cs) with
        | some d =>
          simp only [citeToksF, hm]
          simp only [List.length_cons] at hf hg
          rw [ih g' (cs.drop (7 + d.length)) (by simp only [List.length_drop]; omega)
            (by simp only [List.length_drop]; omega)]
        | none =>
          simp only [citeToksF, hm]
          simp only [List.length_cons] at hf hg
          rw [ih g' cs (by omega) (by omega)]

theorem citeSegs_cons_some {c : Char} {cs d : List Char} (h : citeMatch? (c :: cs) = some d) :
    citeSegs (c :: cs) = [] :: citeSegs (cs.drop (7 + d.length)) := by
  unfold citeSegs
  simp only [List.length_cons, citeSegsF, h]
  congr 1
  exact citeSegsF_fuel _ _ _ (by simp only [List.length_drop]; omega) le_rfl

theorem citeSegs_cons_none {c : Char} {cs s : List Char} {r : List (List Char)}
    (h : citeMatch? (c :: cs) = none) (hs : citeSegs cs = s :: r) :
    citeSegs (c :: cs) = (c :: s) :: r := by
  unfold citeSegs
  simp only [List.length_cons, citeSegsF, h]
  rw [show citeSegsF cs.length cs = s :: r from hs]

theorem citeSegs_ne_nil : ∀ l : List Char, citeSegs l ≠ [] := by
  intro l
  cases l with
  | nil => simp [citeSegs, citeSegsF]
  | cons c cs =>
    unfold citeSegs
    simp only [List.length_cons, citeSegsF]
    cases hm : citeMatch? (c :: cs) with
    | some d => simp
    | none =>
      cases hseg : citeSegsF cs.length cs with
      | nil => simp
      | cons s r => simp

theorem citeToks_cons_some {c : Char} {cs d : List Char} (h : citeMatch? (c :: cs) = some d) :
    citeToks (c :: cs) = d :: citeToks (cs.drop (7 + d.length)) := by
  unfold citeToks
  simp only [List.length_cons, citeToksF, h]
  congr 1
  exact citeToksF_fuel _ _ _ (by simp only [List.length_drop]; omega) le_rfl

theorem citeToks_cons_none {c : Char} {cs : List Char} (h : citeMatch? (c :: cs) = none) :
    citeToks (c :: cs) = citeToks cs := by
  unfold citeToks
  simp only [List.length_cons, citeToksF, h]

theorem citeRebuild_cons (c : Char) (s : List Char) (segs toks : List (List Char)) :
    citeRebuild ((c :: s) :: segs) toks = c :: citeRebuild (s :: segs) toks := by
  cases toks with
  | nil => rfl
  | cons t ts => simp [citeRebuild]

/-- Interleaving the untouched segments with the literal citation
tokens recovers the input verbatim: the tokens are in original order
with their digits preserved. -/
theorem citeRebuild_segs_toks : ∀ (n : Nat) (l : List Char), l.length ≤ n →
    citeRebuild (citeSegs l) ((citeToks l).map fun d => citePat ++ d) = l := by
  intro n
  induction n with
  | zero =>
    intro l hl
    have : l = [] := by
      cases l with
      | nil => rfl
      | cons c cs => simp at hl
    subst this
    rfl
  | succ n ih =>
    intro l hl
    cases l with
    | nil => rfl
    | cons c cs =>
      simp only [List.length_cons] at hl
      cases hm : citeMatch? (c :: cs) with
      | some d =>
        rw [citeSegs_cons_some hm, citeToks_cons_some hm]
        simp only [List.map_cons, citeRebuild, List.nil_append]
        rw [ih (cs.drop (7 + d.length)) (by simp only [List.length_drop]; omega)]
        have hdec := citeMatch?_decomp hm
        have hdrop : (c :: cs).drop (8 + d.length) = cs.drop (7 + d.length) := by
          have h8 : 8 + d.length = (7 + d.length) + 1 := by omega
          rw [h8, List.drop_succ_cons]
        rw [hdrop] at hdec
        rw [hdec]
        simp [List.append_assoc]
      | none =>
        obtain ⟨s, r, hs⟩ : ∃ s r, citeSegs cs = s :: r := by
          cases hseg : citeSegs cs with
          | nil => exact absurd hseg (citeSegs_ne_nil cs)
          | cons s r => exact ⟨s, r, rfl⟩
        rw [citeSegs_cons_none hm hs, citeToks_cons_none hm, citeRebuild_cons]
        have hrec := ih cs (by omega)
        rw [hs] at hrec
        rw [hrec]

/-- The citation pass replaces exactly each found token with its
fragment anchor, keeping the untouched segments as they are. -/
theorem citeRepl_eq_rebuild : ∀ (n : Nat) (l : List Char), l.length ≤ n →
    citeRepl l = citeRebuild (citeSegs l) ((citeToks l).map citeLink) := by
  intro n
  induction n with
  | zero =>
    intro l hl
    have : l = [] := by
      cases l with
      | nil => rfl
      | cons c cs => simp at hl
    subst this
    rfl
  | succ n ih =>
    intro l hl
    cases l with
    | nil => rfl
    | cons c cs =>
      simp only [List.length_cons] at hl
      cases hm : citeMatch? (c :: cs) with
      | some d =>
        rw [citeRepl_cons_some hm, citeSegs_cons_some hm, citeToks_cons_some hm]
        simp only [List.map_cons, citeRebuild, List.nil_append]
        rw [ih (cs.drop (7 + d.length)) (by simp only [List.length_drop]; omega)]
      | none =>
        obtain ⟨s, r, hs⟩ : ∃ s r, citeSegs cs = s :: r := by
          cases hseg : citeSegs cs with
          | nil => exact absurd hseg (citeSegs_ne_nil cs)
          | cons s r => exact ⟨s, r, rfl⟩
        rw [citeRepl_cons_none hm, citeSegs_cons_none hm hs, citeToks_cons_none hm,
          citeRebuild_cons]
        have hrec := ih cs (by omega)
        rw [hs] at hrec
        rw [hrec]

/-- Every extracted citation token is a non-empty digit string. -/
theorem citeToks_wf : ∀ (n : Nat) (l : List Char), l.length ≤ n →
    ∀ d ∈ citeToks l, d ≠ [] ∧ ∀ x ∈ d, x.isDigit = true := by
  intro n
  induction n with
  | zero =>
    intro l hl d hd
    have : l = [] := by
      cases l with
      | nil => rfl
      | cons c cs => simp at hl
    subst this
    simp [citeToks, citeToksF] at hd
  | succ n ih =>
    intro l hl d hd
    cases l with
    | nil => simp [citeToks, citeToksF] at hd
    | cons c cs =>
      simp only [List.length_cons] at hl
      cases hm : citeMatch? (c :: cs) with
      | some d0 =>
        rw [citeToks_cons_some hm] at hd
        rcases List.mem_cons.mp hd with rfl | hd'
        · exact citeMatch?_wf hm
        · exact ih _ (by simp only [List.length_drop]; omega) d hd'
      | none =>
        rw [citeToks_cons_none hm] at hd
        exact ih cs (by omega) d hd

/-! ## Claim theorems -/

/-- Claim C3, counterexample: the claim says `encode_comment` always
rejoins the lines with `<br>` preserving the original count, but for the
two-line input `"https://a\nb"` the URL pass absorbs the `<br>` marker
into the generated link (the regex body class `[$-_...]` contains `<`
and `>`), yielding three `<br>`-separated segments from two lines. -/
theorem c3_counterexample :
    (listSplitOn brTok (encodeComList ("https://a\nb".data))).length ≠
      (rustLines ("https://a\nb".data)).length := by decide

/-- Claim C3, amended: whenever the escaped, span-wrapped, `<br>`-joined
text contains no occurrence of `http` (in particular for any input
without a URL), `encode_comment` returns exactly the per-line
citation-processed lines rejoined with `<br>`, preserving the original
order and count of lines. -/
theorem c3_line_join_preserved (s : String)
    (h : containsSeq httpSub (joinBr ((rustLines (escapeHtml s.data)).map wrapLine)) = false) :
    encode_comment s =
      String.mk (joinBr (((rustLines (escapeHtml s.data)).map wrapLine).map citeRepl)) := by
  unfold encode_comment encodeComList
  rw [urlRepl_no_http h, citeRepl_joinBr]

/-- Claim C3 witness: the three-line input of the repository's own test,
instantiating `c3_line_join_preserved`. -/
theorem c3_line_join_preserved_witness :
    encode_comment "this\nis\nmultiline" =
      String.mk (joinBr (((rustLines (escapeHtml ("this\nis\nmultiline").data)).map
        wrapLine).map citeRepl)) :=
  c3_line_join_preserved "this\nis\nmultiline" (by decide)

/-- Claim C4: a line is wrapped whole in a quoting span exactly when it
begins with the escaped single marker `&gt;` but not the escaped double
marker `&gt;&gt;`; in particular `">hello"` is wrapped and `">>11"` is
rendered as a citation link, not a span. -/
theorem c4_greentext_wrap :
    (∀ ln : List Char, wrapLine ln = spanOpen ++ ln ++ spanClose ↔
      (gtMark.isPrefixOf ln = true ∧ citePat.isPrefixOf ln = false)) ∧
    encode_comment ">hello" = "<span>&gt;hello</span>" ∧
    encode_comment ">>11" = "<a href=\"#p11\">&gt;&gt;11</a>" := by
  refine ⟨?_, by decide, by decide⟩
  intro ln
  have hne : ln ≠ spanOpen ++ (ln ++ spanClose) := by
    intro heq
    have hl := congrArg List.length heq
    simp only [List.length_append, spanOpen, spanClose, List.length_cons, List.length_nil] at hl
    omega
  unfold wrapLine
  cases hgt : gtMark.isPrefixOf ln with
  | false => simp [hgt, hne]
  | true =>
    cases hct : citePat.isPrefixOf ln with
    | false => simp [hgt, hct]
    | true => simp [hgt, hct, hne]

/-- Claim C6: subject rendering is comment rendering wrapped in a single
bold element. -/
theorem c6_subject_bold (s : String) :
    encode_subject s = "<b>" ++ encode_comment s ++ "</b>" := rfl

/-- Supporting family example: for arbitrary non-empty digit strings
`d` and `e`, the input `hello >>d >>e` renders as two distinct
fragment-anchor links in the original order with the digits
preserved. -/
theorem citation_family_hello (d e : List Char) (hd : d ≠ []) (he : e ≠ [])
    (hdig : ∀ x ∈ d, x.isDigit = true) (hedig : ∀ x ∈ e, x.isDigit = true) :
    encode_comment (String.mk (('h' :: 'e' :: 'l' :: 'l' :: 'o' :: ' ' :: '>' :: '>' :: []) ++ d
        ++ ((' ' :: '>' :: '>' :: []) ++ e))) =
      String.mk (('h' :: 'e' :: 'l' :: 'l' :: 'o' :: ' ' :: []) ++
        (citeLink d ++ (' ' :: citeLink e))) := by
  have hdchars := fun x hx => digit_facts (hdig x hx)
  have hechars := fun x hx => digit_facts (hedig x hx)
  have hdE : ¬d.isEmpty = true := by simpa using hd
  have heE : ¬e.isEmpty = true := by simpa using he
  have hEd : escapeHtml d = d :=
    escapeHtml_plain fun x hx => ⟨(hdchars x hx).1, (hdchars x hx).2.1, (hdchars x hx).2.2.1⟩
  have hEe : escapeHtml e = e :=
    escapeHtml_plain fun x hx => ⟨(hechars x hx).1, (hechars x hx).2.1, (hechars x hx).2.2.1⟩
  have hE : escapeHtml (('h' :: 'e' :: 'l' :: 'l' :: 'o' :: ' ' :: '>' :: '>' :: []) ++ d
      ++ ((' ' :: '>' :: '>' :: []) ++ e)) =
      ('h' :: 'e' :: 'l' :: 'l' :: 'o' :: ' ' :: []) ++
        (citePat ++ (d ++ (' ' :: (citePat ++ e)))) := by
    rw [escapeHtml_append, escapeHtml_append, escapeHtml_append, hEd, hEe]
    have h1 : escapeHtml ('h' :: 'e' :: 'l' :: 'l' :: 'o' :: ' ' :: '>' :: '>' :: []) =
        ('h' :: 'e' :: 'l' :: 'l' :: 'o' :: ' ' :: []) ++ citePat := by decide
    have h2 : escapeHtml (' ' :: '>' :: '>' :: []) = ' ' :: citePat := by decide
    rw [h1, h2]
    simp [citePat, List.append_assoc]
  have hmem : ∀ x ∈ ('h' :: 'e' :: 'l' :: 'l' :: 'o' :: ' ' :: []) ++
      (citePat ++ (d ++ (' ' :: (citePat ++ e)))), x ≠ '\n' ∧ x ≠ '\r' := by
    refine List.forall_mem_append.mpr ⟨by decide, ?_⟩
    refine List.forall_mem_append.mpr ⟨by decide, ?_⟩
    refine List.forall_mem_append.mpr
      ⟨fun x hx => ⟨(hdchars x hx).2.2.2.1, (hdchars x hx).2.2.2.2.1⟩, ?_⟩
    refine List.forall_mem_cons.mpr ⟨by decide, ?_⟩
    exact List.forall_mem_append.mpr
      ⟨by decide, fun x hx => ⟨(hechars x hx).2.2.2.1, (hechars x hx).2.2.2.2.1⟩⟩
  have hlines : rustLines (('h' :: 'e' :: 'l' :: 'l' :: 'o' :: ' ' :: []) ++
      (citePat ++ (d ++ (' ' :: (citePat ++ e))))) =
      [('h' :: 'e' :: 'l' :: 'l' :: 'o' :: ' ' :: []) ++
        (citePat ++ (d ++ (' ' :: (citePat ++ e))))] :=
    rustLines_single _ hmem (by simp)
  have hwrap : wrapLine (('h' :: 'e' :: 'l' :: 'l' :: 'o' :: ' ' :: []) ++
      (citePat ++ (d ++ (' ' :: (citePat ++ e))))) =
      ('h' :: 'e' :: 'l' :: 'l' :: 'o' :: ' ' :: []) ++
        (citePat ++ (d ++ (' ' :: (citePat ++ e)))) := by
    unfold wrapLine
    have hg : gtMark.isPrefixOf (('h' :: 'e' :: 'l' :: 'l' :: 'o' :: ' ' :: []) ++
        (citePat ++ (d ++ (' ' :: (citePat ++ e))))) = false := rfl
    rw [hg]
    simp
  have hurl : urlRepl (('h' :: 'e' :: 'l' :: 'l' :: 'o' :: ' ' :: []) ++
      (citePat ++ (d ++ (' ' :: (citePat ++ e))))) =
      ('h' :: 'e' :: 'l' :: 'l' :: 'o' :: ' ' :: []) ++
        (citePat ++ (d ++ (' ' :: (citePat ++ e)))) := by
    show urlRepl ('h' :: 'e' :: (('l' :: 'l' :: 'o' :: ' ' :: []) ++
      (citePat ++ (d ++ (' ' :: (citePat ++ e)))))) = _
    rw [urlRepl_cons_none (urlMatch?_not_t _ (by decide))]
    have hnh : ∀ x ∈ 'e' :: (('l' :: 'l' :: 'o' :: ' ' :: []) ++
        (citePat ++ (d ++ (' ' :: (citePat ++ e))))), x ≠ 'h' := by
      refine List.forall_mem_cons.mpr ⟨by decide, ?_⟩
      refine List.forall_mem_append.mpr ⟨by decide, ?_⟩
      refine List.forall_mem_append.mpr ⟨by decide, ?_⟩
      refine List.forall_mem_append.mpr ⟨fun x hx => (hdchars x hx).2.2.2.2.2, ?_⟩
      refine List.forall_mem_cons.mpr ⟨by decide, ?_⟩
      exact List.forall_mem_append.mpr ⟨by decide, fun x hx => (hechars x hx).2.2.2.2.2⟩
    rw [urlRepl_no_h hnh]
    rfl
  have htok2 : citeRepl (citePat ++ e) = citeLink e := by
    have h0 : citePat ++ e = citePat ++ (e ++ []) := by simp
    rw [h0, citeRepl_token heE hedig (Or.inl rfl)]
    simp [citeRepl, citeReplF]
  have hcite : citeRepl (('h' :: 'e' :: 'l' :: 'l' :: 'o' :: ' ' :: []) ++
      (citePat ++ (d ++ (' ' :: (citePat ++ e))))) =
      ('h' :: 'e' :: 'l' :: 'l' :: 'o' :: ' ' :: []) ++
        (citeLink d ++ (' ' :: citeLink e)) := by
    rw [citeRepl_plain _ _ (by decide),
      citeRepl_token hdE hdig (Or.inr ⟨' ', citePat ++ e, rfl, by decide⟩),
      citeRepl_cons_none (citeMatch?_ne _ (by decide)), htok2]
  show String.mk (encodeComList (('h' :: 'e' :: 'l' :: 'l' :: 'o' :: ' ' :: '>' :: '>' :: []) ++ d
      ++ ((' ' :: '>' :: '>' :: []) ++ e))) = _
  unfold encodeComList
  rw [hE, hlines, List.map_cons, List.map_nil, hwrap]
  have hjoin : ∀ l : List Char, joinBr [l] = l := fun l => rfl
  rw [hjoin, hurl, hcite]

/-- Claim C1, counterexample: the claim says any negative numeric limit
or a whitespace-only name is rejected, but `CreateBoard::validate`
checks only `max_threads`, `max_replies`, `max_img_replies` and only
emptiness of the strings: a form with name `" "` and
`max_sub_len = max_com_len = max_file_size = -1` is accepted. -/
theorem c1_counterexample :
    isOkE (CreateBoard.validate ⟨"a", " ", "d", 0, 0, 0, -1, -1, -1, false⟩) = true := by
  decide

/-- Claim C1, amended: board validation accepts exactly when the code is
non-empty and at most 5 bytes, the name and description are non-empty
and at most 100 bytes, and `max_threads`, `max_replies` and
`max_img_replies` are nonnegative; `max_sub_len`, `max_com_len` and
`max_file_size` are not checked, and only emptiness (not blankness) of
the strings is checked. -/
theorem c1_board_validate_iff (b : CreateBoard) :
    isOkE b.validate = true ↔
      (b.code ≠ "" ∧ strLen b.code ≤ 5 ∧ b.name ≠ "" ∧ strLen b.name ≤ 100 ∧
        b.desc ≠ "" ∧ strLen b.desc ≤ 100 ∧ 0 ≤ b.max_threads ∧ 0 ≤ b.max_replies ∧
        0 ≤ b.max_img_replies) := by
  unfold CreateBoard.validate
  split_ifs with h1 h2 h3 h4 h5 h6
  · simp only [isOkE]
    constructor
    · intro hf; cases hf
    · rintro ⟨hc, hcl, -⟩
      rcases h1 with h | h
      · exact (hc h).elim
      · omega
  · simp only [isOkE]
    constructor
    · intro hf; cases hf
    · rintro ⟨-, -, hn, hnl, -⟩
      rcases h2 with h | h
      · exact (hn h).elim
      · omega
  · simp only [isOkE]
    constructor
    · intro hf; cases hf
    · rintro ⟨-, -, -, -, hdn, hdl, -⟩
      rcases h3 with h | h
      · exact (hdn h).elim
      · omega
  · simp only [isOkE]
    constructor
    · intro hf; cases hf
    · rintro ⟨-, -, -, -, -, -, ht, -⟩
      omega
  · simp only [isOkE]
    constructor
    · intro hf; cases hf
    · rintro ⟨-, -, -, -, -, -, -, hr, -⟩
      omega
  · simp only [isOkE]
    constructor
    · intro hf; cases hf
    · rintro ⟨-, -, -, -, -, -, -, -, hi⟩
      omega
  · simp only [isOkE]
    push_neg at h1 h2 h3
    exact ⟨fun _ => ⟨h1.1, by omega, h2.1, by omega, h3.1, by omega, by omega, by omega,
      by omega⟩, fun _ => trivial⟩

/-- Claim C2, counterexample: the claim says a board code longer than 5
characters, or blank subject and comment, are rejected; but
`CreateThread::validate` never bounds the board-code length and only
checks that subject and comment are not both absent: a form with a
6-character board code is accepted, and so is a form whose subject and
comment are both present but empty. -/
theorem c2_counterexample :
    isOkE (CreateThread.validate ⟨none, some "x", none, none, "abcdef"⟩) = true ∧
    isOkE (CreateThread.validate ⟨none, some "", some "", none, "b"⟩) = true := by
  exact ⟨by decide, by decide⟩

/-- Claim C2, amended: thread validation accepts exactly when subject
and comment are not both absent, the board code is non-empty, and any
supplied alias is at most 100 bytes; the board-code length is not
bounded and present-but-blank subject/comment are accepted. -/
theorem c2_thread_validate_iff (t : CreateThread) :
    isOkE t.validate = true ↔
      (¬(t.sub = none ∧ t.com = none) ∧ t.board ≠ "" ∧ aliasTooLong t.«alias» = false) := by
  unfold CreateThread.validate
  split_ifs with h1 h2 h3
  · simp only [isOkE]
    constructor
    · intro hf; cases hf
    · rintro ⟨hne, -, -⟩
      simp only [Bool.and_eq_true, Option.isNone_iff_eq_none] at h1
      exact (hne h1).elim
  · simp only [isOkE]
    constructor
    · intro hf; cases hf
    · rintro ⟨-, hb, -⟩
      exact (hb h2).elim
  · simp only [isOkE]
    constructor
    · intro hf; cases hf
    · rintro ⟨-, -, ha⟩
      rw [h3] at ha
      cases ha
  · simp only [isOkE]
    refine ⟨fun _ => ⟨?_, h2, Bool.eq_false_iff.mpr h3⟩, fun _ => trivial⟩
    intro hc
    exact h1 (by simp [hc.1, hc.2])

/-- Claim C7: if media-type sniffing finds no match, or the bytes cannot
be turned into a thumbnail, `save_media` returns an error and the blob
write log is empty: no file write occurs on either error path. -/
theorem c7_save_media_no_writes {T : Type} (inferGet : List Nat → Option MediaKind)
    (createThumbnails : List Nat → String → Except String (List T))
    (writeJpeg : T → Except String (List Nat))
    (writeFile : String → List Nat → Except String Unit)
    (uuid : String) (media_data : List Nat)
    (h : inferGet media_data = none ∨
      ∃ k e, inferGet media_data = some k ∧ createThumbnails media_data k.mime = .error e) :
    isOkE (save_media inferGet createThumbnails writeJpeg writeFile uuid media_data).1 = false ∧
    (save_media inferGet createThumbnails writeJpeg writeFile uuid media_data).2 = [] := by
  rcases h with h | ⟨k, e, hk, he⟩
  · simp [save_media, h, isOkE]
  · simp [save_media, hk, he, isOkE]

/-- Claim C7 witness: a buffer whose sniffing fails, with all other
oracles succeeding, yields an error and an empty write log. -/
theorem c7_save_media_no_writes_witness :
    isOkE (@save_media Unit (fun _ => none) (fun _ _ => .ok []) (fun _ => .ok [])
      (fun _ _ => .ok ()) "u" [1, 2]).1 = false ∧
    (@save_media Unit (fun _ => none) (fun _ _ => .ok []) (fun _ => .ok [])
      (fun _ _ => .ok ()) "u" [1, 2]).2 = [] :=
  c7_save_media_no_writes _ _ _ _ "u" [1, 2] (Or.inl rfl)

/-- Claim C8: after multipart decode, comment creation demands comment
text or a media attachment: for a form passing validation, absence of
both yields exactly the "comment or image is required" error, while
presence of at least one (with the media save succeeding when media is
present) reaches the insert and returns its row. -/
theorem c8_comment_or_image (d : CreateComment) (fn : Option String)
    (fb : Option (List Nat)) (sm : List Nat → Except String MediaInfo)
    (rid rcreated : Int) (c : CreateComment) (hv : d.validate = .ok c) :
    (c.com = none → fb = none →
      create_comment_impl d fn fb sm rid rcreated = .error "comment or image is required") ∧
    ((c.com.isSome = true ∨ fb.isSome = true) → (∀ m, fb = some m → isOkE (sm m) = true) →
      isOkE (create_comment_impl d fn fb sm rid rcreated) = true) := by
  constructor
  · intro hc hb
    subst hb
    unfold create_comment_impl
    rw [hv]
    simp [hc]
  · intro hor hsm
    unfold create_comment_impl
    rw [hv]
    cases fb with
    | none =>
      rcases hor with hc | hb
      · rcases Option.isSome_iff_exists.mp hc with ⟨x, hx⟩
        simp [hx, isOkE]
      · simp at hb
    | some m =>
      have hok := hsm m rfl
      cases hsm' : sm m with
      | error e => rw [hsm'] at hok; simp [isOkE] at hok
      | ok mi => simp [hsm', isOkE]

/-- Claim C8 witness: a comment-only form inserts, and an empty form is
rejected with the required-field error. -/
theorem c8_comment_or_image_witness :
    isOkE (create_comment_impl ⟨none, some "hi", none, 0⟩ none none
      (fun _ => .error "no media") 1 2) = true ∧
    create_comment_impl ⟨none, none, none, 0⟩ none none
      (fun _ => .error "no media") 1 2 = .error "comment or image is required" :=
  ⟨(c8_comment_or_image ⟨none, some "hi", none, 0⟩ none none (fun _ => .error "no media") 1 2
      ⟨none, some (encode_comment "hi"), none, 0⟩ rfl).2 (Or.inl rfl)
      (fun m hm => by cases hm),
   (c8_comment_or_image ⟨none, none, none, 0⟩ none none (fun _ => .error "no media") 1 2
      ⟨none, none, none, 0⟩ rfl).1 rfl rfl⟩

/-- Claim C9: every comment row constructed by the thread or comment
creation core satisfies the media-pair invariant: the thumbnail fields
are populated iff the original-media fields are. -/
theorem c9_media_pair (d : CreateThread) (d' : CreateComment) (fn fn' : Option String)
    (fb fb' : Option (List Nat)) (findBoard : String → Except String Board)
    (sm sm' : List Nat → Except String MediaInfo) (rid rc rid' rc' : Int) (r r' : Comment) :
    (create_thread_impl d fn fb findBoard sm rid rc = .ok r → mediaPairInvariant r) ∧
    (create_comment_impl d' fn' fb' sm' rid' rc' = .ok r' → mediaPairInvariant r') := by
  constructor
  · intro h
    unfold create_thread_impl at h
    split at h
    · cases h
    · split at h
      · cases h
      · split at h
        · cases h
        · split at h
          · cases h
          · cases h
            simp [mediaPairInvariant]
  · intro h
    unfold create_comment_impl at h
    split at h
    · cases h
    · split at h
      · cases h
      · split at h
        · split at h
          · cases h
          · cases h
            simp [mediaPairInvariant]
        · cases h
          simp [mediaPairInvariant]

/-- Claim C9 witness: a concrete thread row (with media) and a concrete
bare comment row (without media), both built by the handler cores,
satisfy the invariant. -/
theorem c9_media_pair_witness :
    mediaPairInvariant ⟨1, none, some "f", some "m", some 1, some "png", none, some "mt",
      some 2, some (encode_subject "s"), none, none, some "b", 2⟩ ∧
    mediaPairInvariant ⟨3, none, none, none, none, none, none, none, none, none,
      some (encode_comment "hi"), some 0, none, 4⟩ :=
  ⟨(c9_media_pair ⟨none, some "s", none, none, "b"⟩ ⟨none, some "hi", none, 0⟩ (some "f") none
      (some [1]) none (fun _ => .ok ⟨"b", "n", "d", 0, 0, 0, 0, 0, 0, false, 0⟩)
      (fun _ => .ok ⟨"m", 1, "png", "mt", 2⟩) (fun _ => .error "e") 1 2 3 4
      ⟨1, none, some "f", some "m", some 1, some "png", none, some "mt",
        some 2, some (encode_subject "s"), none, none, some "b", 2⟩
      ⟨3, none, none, none, none, none, none, none, none, none,
        some (encode_comment "hi"), some 0, none, 4⟩).1 rfl,
   (c9_media_pair ⟨none, some "s", none, none, "b"⟩ ⟨none, some "hi", none, 0⟩ (some "f") none
      (some [1]) none (fun _ => .ok ⟨"b", "n", "d", 0, 0, 0, 0, 0, 0, false, 0⟩)
      (fun _ => .ok ⟨"m", 1, "png", "mt", 2⟩) (fun _ => .error "e") 1 2 3 4
      ⟨1, none, some "f", some "m", some 1, some "png", none, some "mt",
        some 2, some (encode_subject "s"), none, none, some "b", 2⟩
      ⟨3, none, none, none, none, none, none, none, none, none,
        some (encode_comment "hi"), some 0, none, 4⟩).2 rfl⟩

/-- The field loop of `parse_multipart` passes over a clean prefix,
only updating its running state. -/
theorem parse_go_clean {T : Type} (decode : String → Except String T) :
    ∀ (pre l : List Part) (st : MPState T), (∀ p ∈ pre, cleanPart decode p) →
      ∃ st', parse_go decode (pre ++ l) st = parse_go decode l st' := by
  intro pre
  induction pre with
  | nil => exact fun l st _ => ⟨st, rfl⟩
  | cons p pre ih =>
    intro l st hc
    have hp := hc p (by simp)
    rw [List.cons_append]
    by_cases hd : p.name = some "data"
    · rcases hp.1 hd with ⟨t, d0, ht, hdec⟩
      simp only [parse_go, hd, ht, hdec, if_true, reduceIte]
      exact ih l _ fun q hq => hc q (by simp [hq])
    · by_cases hm : p.name = some "media"
      · cases hfn : p.file_name with
        | none => exact absurd hfn (hp.2 hm)
        | some f =>
          simp only [parse_go, hd, hm, hfn, if_false, reduceIte]
          exact ih l _ fun q hq => hc q (by simp [hq])
      · simp only [parse_go, hd, hm, if_false, reduceIte]
        exact ih l _ fun q hq => hc q (by simp [hq])

/-- Claim C10: a `media` part with no client filename makes the whole
multipart decode fail (even after any clean prefix of parts), and when a
filename is present only its stem — directories and extension stripped —
is retained as the stored `file_name`. -/
theorem c10_media_filename :
    (∀ (T : Type) (decode : String → Except String T) (pre post : List Part) (bad : Part),
      (∀ p ∈ pre, cleanPart decode p) → bad.name = some "media" → bad.file_name = none →
      parse_multipart decode (pre ++ bad :: post) = .error "file namenot found") ∧
    (∀ (T : Type) (decode : String → Except String T) (dp mp : Part) (txt : String) (d0 : T)
      (f : String), dp.name = some "data" → dp.text = .ok txt → decode txt = .ok d0 →
      mp.name = some "media" → mp.file_name = some f →
      parse_multipart decode [dp, mp] =
        .ok ⟨d0, some (fileStem f), some mp.bytes⟩) := by
  constructor
  · intro T decode pre post bad hc hbn hbf
    unfold parse_multipart
    rcases parse_go_clean decode pre (bad :: post) ⟨none, none, none⟩ hc with ⟨st', hst⟩
    rw [hst]
    have hd : ¬bad.name = some "data" := by rw [hbn]; simp
    simp only [parse_go, hd, hbn, hbf, if_false, reduceIte]
    rw [if_neg (by decide)]
  · intro T decode dp mp txt d0 f hdn hdt hdd hmn hmf
    unfold parse_multipart
    have hmd : ¬mp.name = some "data" := by rw [hmn]; simp
    simp only [parse_go, hdn, hdt, hdd, hmd, hmn, hmf, if_true, if_false, reduceIte]
    rw [if_neg (by decide)]

/-- Claim C10 witness: a filename-less media part fails the decode; a
media part named `dir/photo.png` is retained as the stem `photo`. -/
theorem c10_media_filename_witness :
    parse_multipart (fun _ => (.ok 0 : Except String Nat))
      [⟨some "media", none, .ok "", []⟩] = .error "file namenot found" ∧
    parse_multipart (fun _ => (.ok 0 : Except String Nat))
      [⟨some "data", none, .ok "x", []⟩, ⟨some "media", some "dir/photo.png", .ok "", [9]⟩] =
      .ok ⟨0, some (fileStem "dir/photo.png"), some [9]⟩ ∧
    fileStem "dir/photo.png" = "photo" :=
  ⟨c10_media_filename.1 Nat _ [] [] ⟨some "media", none, .ok "", []⟩ (by simp) rfl rfl,
   c10_media_filename.2 Nat _ ⟨some "data", none, .ok "x", []⟩
     ⟨some "media", some "dir/photo.png", .ok "", [9]⟩ "x" 0 "dir/photo.png" rfl rfl rfl rfl rfl,
   by decide⟩

/-- Claim C5: for every input text, `encode_comment` replaces every
citation token with a fragment-anchor link, in original order with the
digits preserved. Universally over every text `l` reaching the
citation pass: (1) `l` decomposes into its untouched segments and its
citation tokens — interleaving them back recovers `l` verbatim, so the
token list is exactly the citations of `l` in original order with
digits intact; (2) the citation pass replaces exactly each token by
`citeLink` of its digits (the anchor displaying the escaped citation
text and targeting `#p` plus the digits), keeping the segments; (3)
every token is a non-empty digit string; (4) this is the final stage of
`encode_comment` for every input string; and (5) the repository's own
two-citation example renders as two distinct anchors in order. -/
theorem c5_citation_links :
    (∀ l : List Char,
      citeRebuild (citeSegs l) ((citeToks l).map fun d => citePat ++ d) = l) ∧
    (∀ l : List Char, citeRepl l = citeRebuild (citeSegs l) ((citeToks l).map citeLink)) ∧
    (∀ l d : List Char, d ∈ citeToks l → d ≠ [] ∧ ∀ x ∈ d, x.isDigit = true) ∧
    (∀ s : String, encode_comment s =
      String.mk (citeRebuild
        (citeSegs (urlRepl (joinBr ((rustLines (escapeHtml s.data)).map wrapLine))))
        ((citeToks (urlRepl (joinBr ((rustLines (escapeHtml s.data)).map wrapLine)))).map
          citeLink))) ∧
    encode_comment "hello >>11 >>22" =
      "hello <a href=\"#p11\">&gt;&gt;11</a> <a href=\"#p22\">&gt;&gt;22</a>" := by
  refine ⟨fun l => citeRebuild_segs_toks l.length l le_rfl,
    fun l => citeRepl_eq_rebuild l.length l le_rfl,
    fun l d hd => citeToks_wf l.length l le_rfl d hd,
    fun s => ?_, by decide⟩
  unfold encode_comment encodeComList
  exact congrArg String.mk (citeRepl_eq_rebuild _ _ le_rfl)

/-- Claim C5 witness: the claim theorem applied to the escaped form of
the repository's own example, whose first token `11` is a non-empty
digit string. -/
theorem c5_citation_links_witness :
    citeRepl ("hello &gt;&gt;11 &gt;&gt;22".data) =
      citeRebuild (citeSegs ("hello &gt;&gt;11 &gt;&gt;22".data))
        ((citeToks ("hello &gt;&gt;11 &gt;&gt;22".data)).map citeLink) ∧
    (['1', '1'] ≠ [] ∧ ∀ x ∈ ['1', '1'], x.isDigit = true) :=
  ⟨c5_citation_links.2.1 ("hello &gt;&gt;11 &gt;&gt;22".data),
   c5_citation_links.2.2.1 ("hello &gt;&gt;11 &gt;&gt;22".data) ['1', '1'] (by decide)⟩

end Blu
